import Mathlib

/-!
Shallow embedding of the vte2html terminal-state interpreter
(src/main.rs) and proofs of the specification claims.

The Rust program keeps a `Log` (a line buffer of characters paired with
style snapshots, plus a cursor), mutates it from tokenizer events, and
serializes the final buffer to HTML.  Panics in the Rust code are fatal
conditions; fallible operations are therefore embedded as functions
returning `Option`, with `none` standing for a panic.  Machine-integer
casts (`as usize` from `i64` in `offset_cursor`) are embedded with an
explicit `% 2 ^ 64`.
-/

namespace Vte2Html

/-- Rust `enum Intensity { Bold, Faint }`. -/
inductive Intensity where
  | Bold
  | Faint
deriving DecidableEq, Repr

/-- Rust `enum Color { N(i64), RGB(i64, i64, i64) }`. -/
inductive Color where
  | N (n : Int)
  | RGB (r g b : Int)
deriving DecidableEq, Repr

/-- Rust `struct VisualState { intensity, fg, bg }`. -/
structure VisualState where
  intensity : Option Intensity
  fg : Option Color
  bg : Option Color
deriving DecidableEq, Repr

/-- Constructor `VisualState::new()`: all channels unset. -/
def VisualState.new : VisualState :=
  { intensity := none, fg := none, bg := none }

/-- Rust `struct Log { cursor, chars, visuals, visual_state }`.  `visuals` is
what the spec calls `styles`. -/
structure Log where
  cursor : Nat
  chars : List Char
  visuals : List VisualState
  visual_state : VisualState
deriving DecidableEq, Repr

/-- The initial performer built in `main`: empty buffer, cursor 0,
all-unset style. -/
def initLog : Log :=
  { cursor := 0, chars := [], visuals := [], visual_state := VisualState.new }

/-- Operation `Log::offset_cursor`: `let new_cursor: usize = (self.cursor as i64 + offset) as usize;`
then panic when `new_cursor > self.chars.len()`, else store it.  The
`as usize` cast wraps modulo `2 ^ 64`, which the embedding keeps
explicit. -/
def Log.offset_cursor (l : Log) (offset : Int) : Option Log :=
  let new_cursor : Nat := (((l.cursor : Int) + offset) % (2 ^ 64 : Int)).toNat
  if new_cursor > l.chars.length then none
  else some { l with cursor := new_cursor }

/-- Operation `Log::write`: overwrite at the cursor when `chars.len() > cursor`
(indexed assignment into `visuals` panics when it is shorter), append
when `chars.len() == cursor`, panic when the cursor exceeds the length;
both non-panicking branches then call `offset_cursor(1)`. -/
def Log.write (l : Log) (c : Char) : Option Log :=
  if l.chars.length > l.cursor then
    if l.cursor < l.visuals.length then
      Log.offset_cursor
        { l with chars := l.chars.set l.cursor c,
                 visuals := l.visuals.set l.cursor l.visual_state } 1
    else none
  else if l.chars.length = l.cursor then
    Log.offset_cursor
      { l with chars := l.chars ++ [c],
               visuals := l.visuals ++ [l.visual_state] } 1
  else none

/-- The backward scan of `Log::cursor_to_start_of_line`:
`for i in (0..=cursor-1).rev() { if self.chars[i] == '\n' { ... } }`.
Returns `none` for an out-of-bounds index (a Rust panic),
`some (some i)` when a newline is found at `i`, `some none` when the
scan reaches index 0 without finding one. -/
def scanBack (chars : List Char) : Nat → Option (Option Nat)
  | 0 =>
    match chars[0]? with
    | none => none
    | some ch => if ch = '\n' then some (some 0) else some none
  | j + 1 =>
    match chars[j + 1]? with
    | none => none
    | some ch => if ch = '\n' then some (some (j + 1)) else scanBack chars j

/-- Operation `Log::cursor_to_start_of_line`. -/
def Log.cursor_to_start_of_line (l : Log) : Option Log :=
  if l.cursor = 0 then some l
  else
    match scanBack l.chars (l.cursor - 1) with
    | none => none
    | some (some i) => some { l with cursor := i + 1 }
    | some none => some { l with cursor := 0 }

/-- Operation `Log::delete_range`: `drain(from..to)` on both vectors (panicking
when the range is invalid for either), then clamp the cursor to the new
length. -/
def Log.delete_range (l : Log) (a b : Nat) : Option Log :=
  if a ≤ b ∧ b ≤ l.chars.length ∧ b ≤ l.visuals.length then
    let chars' := l.chars.take a ++ l.chars.drop b
    let visuals' := l.visuals.take a ++ l.visuals.drop b
    some { cursor := if l.cursor > chars'.length then chars'.length else l.cursor,
           chars := chars', visuals := visuals', visual_state := l.visual_state }
  else none

/-- The forward scan of `Log::delete_to_end_of_line`:
`for i in cursor..len { if self.chars[i] == '\n' { return i } }` over the
suffix, carrying the absolute index. -/
def findNlAux : List Char → Nat → Option Nat
  | [], _ => none
  | c :: rest, k => if c = '\n' then some k else findNlAux rest (k + 1)

/-- Operation `Log::delete_to_end_of_line`. -/
def Log.delete_to_end_of_line (l : Log) : Option Log :=
  match findNlAux (l.chars.drop l.cursor) l.cursor with
  | some i => l.delete_range l.cursor i
  | none => l.delete_range l.cursor l.chars.length

/-- One SGR code applied to the style state: the `match p` arms of the
`'m'` branch of `csi_dispatch` (via `set_intensity`/`set_fg`/`set_bg`).
Unlisted codes are ignored. -/
def applySgrCode (v : VisualState) (p : Nat) : VisualState :=
  if p = 0 then VisualState.new
  else if p = 1 then { v with intensity := some Intensity.Bold }
  else if p = 22 then { v with intensity := none }
  else if 30 ≤ p ∧ p ≤ 37 then { v with fg := some (Color.N (p : Int)) }
  else if p = 39 then { v with fg := none }
  else if 40 ≤ p ∧ p ≤ 47 then { v with bg := some (Color.N (p : Int)) }
  else if p = 49 then { v with bg := none }
  else if 90 ≤ p ∧ p ≤ 97 then { v with fg := some (Color.N (p : Int)) }
  else if 100 ≤ p ∧ p ≤ 107 then { v with bg := some (Color.N (p : Int)) }
  else v

/-- The nested `for ps in params { for p in ps { ... } }` loop of the
`'m'` branch. -/
def applyStyleCodes (v : VisualState) (params : List (List Nat)) : VisualState :=
  params.foldl (fun v ps => ps.foldl applySgrCode v) v

/-- The `'K'` branch of `csi_dispatch`: exactly one parameter group is
required; each value in it must be 0 (dispatching
`delete_to_end_of_line`), any other value panics. -/
def csiK (l : Log) (params : List (List Nat)) : Option Log :=
  if params.length = 1 then
    params.foldlM
      (fun l ps =>
        ps.foldlM (fun l p => if p = 0 then l.delete_to_end_of_line else none) l) l
  else none

/-- The `'C'` branch of `csi_dispatch`: exactly one parameter group is
required; each value is passed to `offset_cursor`. -/
def csiC (l : Log) (params : List (List Nat)) : Option Log :=
  if params.length = 1 then
    params.foldlM
      (fun l ps => ps.foldlM (fun l p => l.offset_cursor (Int.ofNat p)) l) l
  else none

/-- Handler `Perform::csi_dispatch` for `Log`.  Parameter values are `u16` in
the tokenizer, embedded as `Nat`.  Intermediates and the ignore flag are
unused by the source. -/
def csi_dispatch (l : Log) (params : List (List Nat)) (ints : List Nat)
    (ig : Bool) (c : Char) : Option Log :=
  if c = 'm' then some { l with visual_state := applyStyleCodes l.visual_state params }
  else if c = 'K' then csiK l params
  else if c = 'C' then csiC l params
  else some l

/-- The tokenizer events delivered to the `Perform` implementation. -/
inductive Event where
  | print (c : Char)
  | execute (b : Nat)
  | hook (params : List (List Nat)) (ints : List Nat) (ig : Bool) (c : Char)
  | put (b : Nat)
  | unhook
  | osc_dispatch (params : List (List Nat)) (bell : Bool)
  | csi_dispatch (params : List (List Nat)) (ints : List Nat) (ig : Bool) (c : Char)
  | esc_dispatch (ints : List Nat) (ig : Bool) (b : Nat)
deriving DecidableEq, Repr

/-- One tokenizer event handled by the `Perform` impl: `print` writes the
character, `execute` writes a newline for 0x0A and repositions for 0x0D,
CSI dispatches per `csi_dispatch`, and everything else is a no-op. -/
def step (l : Log) (e : Event) : Option Log :=
  match e with
  | Event.print c => l.write c
  | Event.execute b =>
    if b = 0x0a then l.write '\n'
    else if b = 0x0d then l.cursor_to_start_of_line
    else some l
  | Event.csi_dispatch params ints ig c => csi_dispatch l params ints ig c
  | _ => some l

/-- A whole event stream, threaded through `step`. -/
def run (es : List Event) (l : Log) : Option Log :=
  es.foldlM step l

/-- The intensity contribution to `print_span`'s class list. -/
def intensityClasses (i : Option Intensity) : List String :=
  match i with
  | some Intensity.Bold => ["sgr-bold"]
  | some Intensity.Faint => ["sgr-faint"]
  | none => []

/-- The foreground contribution to `print_span`'s class list; a named
color outside 30–37 and 90–97 panics, `RGB` contributes nothing. -/
def fgClasses (c : Option Color) : Option (List String) :=
  match c with
  | some (Color.N num) =>
    if 30 ≤ num ∧ num ≤ 37 then some ["sgr-fg-" ++ toString (num - 29)]
    else if 90 ≤ num ∧ num ≤ 97 then some ["sgr-fg-b" ++ toString (num - 89)]
    else none
  | some (Color.RGB _ _ _) => some []
  | none => some []

/-- The background contribution to `print_span`'s class list; a named
color outside 40–47 and 100–107 panics, `RGB` contributes nothing. -/
def bgClasses (c : Option Color) : Option (List String) :=
  match c with
  | some (Color.N num) =>
    if 40 ≤ num ∧ num ≤ 47 then some ["sgr-bg-" ++ toString (num - 39)]
    else if 100 ≤ num ∧ num ≤ 107 then some ["sgr-bg-b" ++ toString (num - 99)]
    else none
  | some (Color.RGB _ _ _) => some []
  | none => some []

/-- The full class list built by `print_span`. -/
def span_classes (v : VisualState) : Option (List String) :=
  match fgClasses v.fg, bgClasses v.bg with
  | some l2, some l3 => some (intensityClasses v.intensity ++ l2 ++ l3)
  | _, _ => none

/-- Serializer helper `print_span`: returns whether a span was opened together with the
text printed (`<span class="...">` when the class list is non-empty,
nothing otherwise). -/
def print_span (v : VisualState) : Option (Bool × String) :=
  (span_classes v).map fun cls =>
    if cls.isEmpty then (false, "")
    else (true, "<span class=\"" ++ String.intercalate " " cls ++ "\">")

/-- The serializer loop of `main` over the index list: at index 0 and at
every style change, close any open span and try to open a new one; print
the character; close an open span after the last index. -/
def renderGo (chars : List Char) (visuals : List VisualState) :
    List Nat → Bool → String → Option String
  | [], _, out => some out
  | i :: rest, had, out =>
    match visuals[i]? with
    | none => none
    | some v =>
      let opened : Option (Bool × String) :=
        if i = 0 then
          (print_span v).map fun bs => (bs.1, out ++ bs.2)
        else
          match visuals[i - 1]? with
          | none => none
          | some vprev =>
            if v = vprev then some (had, out)
            else
              let out2 := if had then out ++ "</span>" else out
              (print_span v).map fun bs => (bs.1, out2 ++ bs.2)
      match opened with
      | none => none
      | some (had2, out3) =>
        match chars[i]? with
        | none => none
        | some ch =>
          let out4 := out3 ++ ch.toString
          let out5 := if i = chars.length - 1 ∧ had2 then out4 ++ "</span>" else out4
          renderGo chars visuals rest had2 out5

/-- The serializer of `main`: `for i in 0..performer.chars.len()`. -/
def render (chars : List Char) (visuals : List VisualState) : Option String :=
  renderGo chars visuals (List.range chars.length) false ""

/-- End of pipeline: serialize a finished performer. -/
def renderLog (l : Log) : Option String :=
  render l.chars l.visuals

/-- The buffer invariants of the spec: equal lengths and
`cursor ≤ len(chars)` (`0 ≤ cursor` holds by the `Nat` type). -/
def WF (l : Log) : Prop :=
  l.visuals.length = l.chars.length ∧ l.cursor ≤ l.chars.length

instance (l : Log) : Decidable (WF l) := by
  unfold WF; infer_instance

/-! ### Preservation of the buffer invariants -/

theorem offset_cursor_WF {l l' : Log} {d : Int} (h : WF l)
    (he : l.offset_cursor d = some l') : WF l' := by
  simp only [Log.offset_cursor] at he
  split at he
  · simp at he
  · next hle =>
    cases he
    exact ⟨h.1, Nat.le_of_not_lt hle⟩

theorem write_WF {l l' : Log} {c : Char} (h : WF l)
    (he : l.write c = some l') : WF l' := by
  unfold Log.write at he
  split at he
  · split at he
    · refine offset_cursor_WF ⟨by simp [h.1], by simpa using h.2⟩ he
    · simp at he
  · split at he
    · refine offset_cursor_WF ⟨by simp [h.1], ?_⟩ he
      show l.cursor ≤ (l.chars ++ [c]).length
      have := h.2
      simp only [List.length_append, List.length_cons, List.length_nil]
      omega
    · simp at he

theorem scanBack_found_getElem (chars : List Char) :
    ∀ i j, scanBack chars i = some (some j) → chars[j]? = some '\n' := by
  intro i
  induction i with
  | zero =>
    intro j h
    simp only [scanBack] at h
    cases hc : chars[0]? with
    | none => rw [hc] at h; exact absurd h (by simp)
    | some ch =>
      rw [hc] at h
      by_cases hch : ch = '\n'
      · simp only [if_pos hch] at h
        obtain rfl : (0 : Nat) = j := by simpa using h
        rw [hc, hch]
      · simp [hch] at h
  | succ n ih =>
    intro j h
    simp only [scanBack] at h
    cases hc : chars[n + 1]? with
    | none => rw [hc] at h; exact absurd h (by simp)
    | some ch =>
      rw [hc] at h
      by_cases hch : ch = '\n'
      · simp only [if_pos hch] at h
        obtain rfl : n + 1 = j := by simpa using h
        rw [hc, hch]
      · simp only [if_neg hch] at h
        exact ih j h

theorem cursor_to_start_of_line_WF {l l' : Log} (h : WF l)
    (he : l.cursor_to_start_of_line = some l') : WF l' := by
  unfold Log.cursor_to_start_of_line at he
  split at he
  · cases he; exact h
  · cases hs : scanBack l.chars (l.cursor - 1) with
    | none => rw [hs] at he; exact absurd he (by simp)
    | some r =>
      rw [hs] at he
      cases r with
      | none => cases he; exact ⟨h.1, Nat.zero_le _⟩
      | some i =>
        cases he
        have hmem := scanBack_found_getElem l.chars (l.cursor - 1) i hs
        have hi : i < l.chars.length := (List.getElem?_eq_some.1 hmem).1
        exact ⟨h.1, by simpa using hi⟩

theorem delete_range_WF {l l' : Log} {a b : Nat} (h : WF l)
    (he : l.delete_range a b = some l') : WF l' := by
  simp only [Log.delete_range] at he
  split at he
  · cases he
    refine ⟨by simp [h.1], ?_⟩
    simp only
    split <;> omega
  · exact absurd he (by simp)

theorem delete_to_end_of_line_WF {l l' : Log} (h : WF l)
    (he : l.delete_to_end_of_line = some l') : WF l' := by
  unfold Log.delete_to_end_of_line at he
  cases hf : findNlAux (l.chars.drop l.cursor) l.cursor with
  | some i => rw [hf] at he; exact delete_range_WF h he
  | none => rw [hf] at he; exact delete_range_WF h he

/-- Invariant preservation through a monadic fold in `Option`. -/
theorem foldlM_option_inv {α β : Type} (P : β → Prop) (f : β → α → Option β)
    (hf : ∀ b a b', P b → f b a = some b' → P b') :
    ∀ (xs : List α) (b b' : β), P b → xs.foldlM f b = some b' → P b' := by
  intro xs
  induction xs with
  | nil =>
    intro b b' hb he
    simp at he
    exact he ▸ hb
  | cons x xs ih =>
    intro b b' hb he
    rw [List.foldlM_cons] at he
    cases hx : f b x with
    | none => rw [hx] at he; exact absurd he (by simp)
    | some b2 =>
      rw [hx] at he
      exact ih b2 b' (hf b x b2 hb hx) he

theorem csiK_WF {l l' : Log} {params : List (List Nat)} (h : WF l)
    (he : csiK l params = some l') : WF l' := by
  unfold csiK at he
  split at he
  · refine foldlM_option_inv WF _ ?_ params l l' h he
    intro b ps b' hb hbe
    refine foldlM_option_inv WF _ ?_ ps b b' hb hbe
    intro b2 p b2' hb2 hbe2
    split at hbe2
    · exact delete_to_end_of_line_WF hb2 hbe2
    · exact absurd hbe2 (by simp)
  · exact absurd he (by simp)

theorem csiC_WF {l l' : Log} {params : List (List Nat)} (h : WF l)
    (he : csiC l params = some l') : WF l' := by
  unfold csiC at he
  split at he
  · refine foldlM_option_inv WF _ ?_ params l l' h he
    intro b ps b' hb hbe
    refine foldlM_option_inv WF _ ?_ ps b b' hb hbe
    intro b2 p b2' hb2 hbe2
    exact offset_cursor_WF hb2 hbe2
  · exact absurd he (by simp)

theorem step_WF {l l' : Log} {e : Event} (h : WF l)
    (he : step l e = some l') : WF l' := by
  cases e with
  | print c => exact write_WF h he
  | execute b =>
    simp only [step] at he
    split at he
    · exact write_WF h he
    · split at he
      · exact cursor_to_start_of_line_WF h he
      · cases he; exact h
  | csi_dispatch params ints ig c =>
    simp only [step, csi_dispatch] at he
    split at he
    · cases he; exact h
    · split at he
      · exact csiK_WF h he
      · split at he
        · exact csiC_WF h he
        · cases he; exact h
  | hook params ints ig c => cases he; exact h
  | put b => cases he; exact h
  | unhook => cases he; exact h
  | osc_dispatch params bell => cases he; exact h
  | esc_dispatch ints ig b => cases he; exact h

/-- C1: for every buffer state satisfying the invariants (in particular
every reachable state) and every operation — `write`, `offset_cursor`,
`cursor_to_start_of_line`, `delete_to_end_of_line`, `delete_range`, and
every tokenizer-event handler — if the operation returns without
signaling the fatal condition then afterwards
`len(chars) = len(styles)` and `0 ≤ cursor ≤ len(chars)`. -/
theorem C1_operations_preserve_invariants (l : Log) (h : WF l) :
    (∀ c l', l.write c = some l' → WF l') ∧
    (∀ d l', l.offset_cursor d = some l' → WF l') ∧
    (∀ l', l.cursor_to_start_of_line = some l' → WF l') ∧
    (∀ l', l.delete_to_end_of_line = some l' → WF l') ∧
    (∀ a b l', l.delete_range a b = some l' → WF l') ∧
    (∀ e l', step l e = some l' → WF l') :=
  ⟨fun _ _ he => write_WF h he,
   fun _ _ he => offset_cursor_WF h he,
   fun _ he => cursor_to_start_of_line_WF h he,
   fun _ he => delete_to_end_of_line_WF h he,
   fun _ _ _ he => delete_range_WF h he,
   fun _ _ he => step_WF h he⟩

/-- Advancing by one stays within machine range and lands in bounds. -/
theorem offset_cursor_succ (l : Log) (h : l.cursor + 1 ≤ l.chars.length)
    (hsz : l.cursor + 1 < 2 ^ 64) :
    l.offset_cursor 1 = some { l with cursor := l.cursor + 1 } := by
  simp only [Log.offset_cursor]
  have h1 : ((l.cursor : Int) + 1) % (2 ^ 64 : Int) = (l.cursor : Int) + 1 :=
    Int.emod_eq_of_lt (by positivity) (by push_cast; omega)
  rw [h1]
  have h2 : ((l.cursor : Int) + 1).toNat = l.cursor + 1 := by omega
  rw [h2, if_neg (by omega)]

/-- C2: with the length invariant and a machine-representable buffer,
`write c` overwrites `chars[cursor]`/`styles[cursor]` and advances the
cursor when `cursor < len`, appends and advances when `cursor = len`,
and signals the fatal condition when `cursor > len`. -/
theorem C2_write_spec (l : Log) (c : Char)
    (hlen : l.visuals.length = l.chars.length) (hsz : l.chars.length < 2 ^ 63) :
    (l.cursor < l.chars.length →
      l.write c = some { l with chars := l.chars.set l.cursor c,
                                visuals := l.visuals.set l.cursor l.visual_state,
                                cursor := l.cursor + 1 }) ∧
    (l.cursor = l.chars.length →
      l.write c = some { l with chars := l.chars ++ [c],
                                visuals := l.visuals ++ [l.visual_state],
                                cursor := l.cursor + 1 }) ∧
    (l.chars.length < l.cursor → l.write c = none) := by
  refine ⟨?_, ?_, ?_⟩
  · intro hlt
    unfold Log.write
    rw [if_pos hlt, if_pos (show l.cursor < l.visuals.length by omega)]
    exact offset_cursor_succ
      { l with chars := l.chars.set l.cursor c,
               visuals := l.visuals.set l.cursor l.visual_state }
      (by simp; omega) (by simp; omega)
  · intro heq
    unfold Log.write
    rw [if_neg (by omega), if_pos heq.symm]
    exact offset_cursor_succ
      { l with chars := l.chars ++ [c], visuals := l.visuals ++ [l.visual_state] }
      (by simp; omega) (by simp; omega)
  · intro hgt
    unfold Log.write
    rw [if_neg (by omega), if_neg (by omega)]

theorem C2_witness :
    Log.write { cursor := 0, chars := ['a'], visuals := [VisualState.new],
                visual_state := VisualState.new } 'b'
      = some { cursor := 1, chars := ['b'], visuals := [VisualState.new],
               visual_state := VisualState.new } := by
  have h := (C2_write_spec
    { cursor := 0, chars := ['a'], visuals := [VisualState.new],
      visual_state := VisualState.new } 'b' (by decide) (by norm_num)).1
    (by decide)
  simpa using h

/-- C6: for machine-representable states and deltas, `offset_cursor d`
sets the cursor to `cursor + d` when `0 ≤ cursor + d ≤ len(chars)` and
signals the fatal condition (rather than clamping or wrapping) when
`cursor + d` is negative or exceeds `len(chars)`; in particular the
stream `"ab\x1b[5C"` — two writes then a CSI `'C'` dispatch with offset
5 — is fatal. -/
theorem C6_offset_cursor_spec :
    (∀ (l : Log) (d : Int), l.cursor ≤ l.chars.length → l.chars.length < 2 ^ 63 →
        -(2 ^ 63) ≤ d → d < 2 ^ 63 →
        ((0 ≤ (l.cursor : Int) + d ∧ (l.cursor : Int) + d ≤ (l.chars.length : Int) →
            l.offset_cursor d = some { l with cursor := ((l.cursor : Int) + d).toNat }) ∧
         ((l.cursor : Int) + d < 0 ∨ (l.chars.length : Int) < (l.cursor : Int) + d →
            l.offset_cursor d = none))) ∧
    run [Event.print 'a', Event.print 'b',
         Event.csi_dispatch [[5]] [] false 'C'] initLog = none := by
  constructor
  · intro l d hc hsz hd1 hd2
    constructor
    · rintro ⟨h0, h1⟩
      simp only [Log.offset_cursor]
      rw [Int.emod_eq_of_lt h0 (by push_cast; omega)]
      rw [if_neg (by omega)]
    · intro hcase
      simp only [Log.offset_cursor]
      have hgt : (((l.cursor : Int) + d) % (2 ^ 64 : Int)).toNat > l.chars.length := by
        rcases hcase with hneg | hover
        · have he : ((l.cursor : Int) + d) % (2 ^ 64 : Int)
              = (l.cursor : Int) + d + 2 ^ 64 := by omega
          rw [he]; omega
        · have he : ((l.cursor : Int) + d) % (2 ^ 64 : Int) = (l.cursor : Int) + d :=
            Int.emod_eq_of_lt (by omega) (by push_cast; omega)
          rw [he]; omega
      rw [if_pos hgt]
  · decide

theorem C6_witness :
    Log.offset_cursor { cursor := 0, chars := ['a'], visuals := [VisualState.new],
                        visual_state := VisualState.new } 1
      = some { cursor := 1, chars := ['a'], visuals := [VisualState.new],
               visual_state := VisualState.new } := by
  have h := (C6_offset_cursor_spec.1
    { cursor := 0, chars := ['a'], visuals := [VisualState.new],
      visual_state := VisualState.new } 1
    (by decide) (by norm_num) (by norm_num) (by norm_num)).1 (by norm_num)
  simpa using h

/-- C7: a CSI `'K'` dispatch with exactly one parameter group holding 0
invokes `delete_to_end_of_line`; a non-zero erase mode, or a group count
other than one, signals the fatal condition. -/
theorem C7_csiK_spec (l : Log) (ints : List Nat) (ig : Bool) :
    (∀ n : Nat, n = 0 →
      step l (Event.csi_dispatch [[n]] ints ig 'K') = l.delete_to_end_of_line) ∧
    (∀ n : Nat, n ≠ 0 →
      step l (Event.csi_dispatch [[n]] ints ig 'K') = none) ∧
    (∀ params : List (List Nat), params.length ≠ 1 →
      step l (Event.csi_dispatch params ints ig 'K') = none) := by
  refine ⟨?_, ?_, ?_⟩
  · rintro n rfl
    cases hd : l.delete_to_end_of_line <;>
      simp [step, csi_dispatch, csiK, List.foldlM, hd]
  · intro n hn
    simp [step, csi_dispatch, csiK, List.foldlM, hn]
  · intro params hp
    simp [step, csi_dispatch, csiK, hp]

theorem C7_witness :
    step initLog (Event.csi_dispatch [[0]] [] false 'K')
      = initLog.delete_to_end_of_line :=
  (C7_csiK_spec initLog [] false).1 0 rfl

/-- C3 is false as stated: a CSI `'m'` dispatch carrying no parameter
groups leaves the style state untouched, so from a bold style state it
does not behave as SGR 0 (reset). -/
theorem C3_counterexample :
    step { cursor := 0, chars := [], visuals := [],
           visual_state := { intensity := some Intensity.Bold, fg := none, bg := none } }
      (Event.csi_dispatch [] [] false 'm')
      = some { cursor := 0, chars := [], visuals := [],
               visual_state := { intensity := some Intensity.Bold, fg := none, bg := none } } ∧
    ({ intensity := some Intensity.Bold, fg := none, bg := none } : VisualState)
      ≠ VisualState.new := by
  decide

/-- C3 amended: a CSI `'m'` dispatch with no parameter groups is a no-op
on the whole state; the reset-on-empty behavior of the pipeline comes
from the external tokenizer, which delivers a single parameter group
`[0]` for a parameterless SGR sequence, and a dispatch carrying `[[0]]`
does reset intensity, foreground, and background to unset. -/
theorem C3_empty_params_noop (l : Log) (ints : List Nat) (ig : Bool) :
    step l (Event.csi_dispatch [] ints ig 'm') = some l ∧
    step l (Event.csi_dispatch [[0]] ints ig 'm')
      = some { l with visual_state := VisualState.new } :=
  ⟨rfl, rfl⟩

/-- Full characterization of the backward scan: on an in-bounds start
index it finds the greatest newline index at or below it, or reports
that none exists. -/
theorem scanBack_spec (chars : List Char) :
    ∀ i, i < chars.length →
      (∃ j, scanBack chars i = some (some j) ∧ j ≤ i ∧ chars[j]? = some '\n' ∧
        ∀ k, j < k → k ≤ i → chars[k]? ≠ some '\n') ∨
      (scanBack chars i = some none ∧ ∀ k, k ≤ i → chars[k]? ≠ some '\n') := by
  intro i
  induction i with
  | zero =>
    intro h0
    have hc : chars[0]? = some chars[0] := List.getElem?_eq_getElem h0
    by_cases hch : chars[0] = '\n'
    · exact Or.inl ⟨0, by simp [scanBack, hc, hch], Nat.le_refl 0, by rw [hc, hch],
        fun k hk1 hk2 => by omega⟩
    · refine Or.inr ⟨by simp [scanBack, hc, hch], ?_⟩
      intro k hk
      have : k = 0 := by omega
      subst this
      rw [hc]
      simp [hch]
  | succ n ih =>
    intro hs
    have hc : chars[n + 1]? = some chars[n + 1] := List.getElem?_eq_getElem hs
    by_cases hch : chars[n + 1] = '\n'
    · exact Or.inl ⟨n + 1, by simp [scanBack, hc, hch], Nat.le_refl _, by rw [hc, hch],
        fun k hk1 hk2 => by omega⟩
    · have hrec : scanBack chars (n + 1) = scanBack chars n := by
        simp [scanBack, hc, hch]
      rcases ih (by omega) with ⟨j, hj1, hj2, hj3, hj4⟩ | ⟨h1, h2⟩
      · refine Or.inl ⟨j, hrec ▸ hj1, by omega, hj3, ?_⟩
        intro k hk1 hk2
        rcases Nat.lt_or_ge k (n + 1) with hk | hk
        · exact hj4 k hk1 (by omega)
        · have : k = n + 1 := by omega
          subst this
          rw [hc]; simp [hch]
      · refine Or.inr ⟨hrec ▸ h1, ?_⟩
        intro k hk
        rcases Nat.lt_or_ge k (n + 1) with hk2 | hk2
        · exact h2 k (by omega)
        · have : k = n + 1 := by omega
          subst this
          rw [hc]; simp [hch]

/-- C4: `cursor_to_start_of_line` is exactly the handler of the
carriage-return execute byte 0x0D; with the cursor in bounds it
succeeds, leaves `chars`, `styles`, and the style state unchanged, and
sets the cursor to one past the nearest newline strictly before it, or
to 0 when no such newline exists (a no-op when the cursor is already
0). -/
theorem C4_cursor_to_start_of_line_spec (l : Log) (h : l.cursor ≤ l.chars.length) :
    step l (Event.execute 0x0d) = l.cursor_to_start_of_line ∧
    ∃ l', l.cursor_to_start_of_line = some l' ∧
      l'.chars = l.chars ∧ l'.visuals = l.visuals ∧ l'.visual_state = l.visual_state ∧
      ((∃ j, j < l.cursor ∧ l.chars[j]? = some '\n' ∧
          (∀ k, j < k → k < l.cursor → l.chars[k]? ≠ some '\n') ∧ l'.cursor = j + 1) ∨
       ((∀ k, k < l.cursor → l.chars[k]? ≠ some '\n') ∧ l'.cursor = 0)) := by
  refine ⟨rfl, ?_⟩
  by_cases h0 : l.cursor = 0
  · refine ⟨l, ?_, rfl, rfl, rfl, Or.inr ⟨fun k hk => by omega, h0⟩⟩
    simp [Log.cursor_to_start_of_line, h0]
  · have hlt : l.cursor - 1 < l.chars.length := by omega
    rcases scanBack_spec l.chars (l.cursor - 1) hlt with ⟨j, hj1, hj2, hj3, hj4⟩ | ⟨h1, h2⟩
    · refine ⟨{ l with cursor := j + 1 }, ?_, rfl, rfl, rfl,
        Or.inl ⟨j, by omega, hj3, ?_, rfl⟩⟩
      · simp [Log.cursor_to_start_of_line, h0, hj1]
      · intro k hk1 hk2
        exact hj4 k hk1 (by omega)
    · refine ⟨{ l with cursor := 0 }, ?_, rfl, rfl, rfl, Or.inr ⟨?_, rfl⟩⟩
      · simp [Log.cursor_to_start_of_line, h0, h1]
      · intro k hk
        exact h2 k (by omega)

theorem C4_witness :
    step (Log.mk 1 ['x'] [VisualState.new] VisualState.new) (Event.execute 0x0d)
      = (Log.mk 1 ['x'] [VisualState.new] VisualState.new).cursor_to_start_of_line ∧
    ∃ l', (Log.mk 1 ['x'] [VisualState.new] VisualState.new).cursor_to_start_of_line
        = some l' ∧
      l'.chars = (Log.mk 1 ['x'] [VisualState.new] VisualState.new).chars ∧
      l'.visuals = (Log.mk 1 ['x'] [VisualState.new] VisualState.new).visuals ∧
      l'.visual_state = (Log.mk 1 ['x'] [VisualState.new] VisualState.new).visual_state ∧
      ((∃ j, j < (Log.mk 1 ['x'] [VisualState.new] VisualState.new).cursor ∧
          (Log.mk 1 ['x'] [VisualState.new] VisualState.new).chars[j]? = some '\n' ∧
          (∀ k, j < k → k < (Log.mk 1 ['x'] [VisualState.new] VisualState.new).cursor →
            (Log.mk 1 ['x'] [VisualState.new] VisualState.new).chars[k]? ≠ some '\n') ∧
          l'.cursor = j + 1) ∨
       ((∀ k, k < (Log.mk 1 ['x'] [VisualState.new] VisualState.new).cursor →
          (Log.mk 1 ['x'] [VisualState.new] VisualState.new).chars[k]? ≠ some '\n') ∧
        l'.cursor = 0)) :=
  C4_cursor_to_start_of_line_spec (Log.mk 1 ['x'] [VisualState.new] VisualState.new)
    (by decide)

/-- Full characterization of the forward scan: it finds the first
newline of the list (with the carried absolute offset added), or reports
that the list holds none. -/
theorem findNlAux_spec (l : List Char) :
    ∀ k,
      (∃ m, m < l.length ∧ l[m]? = some '\n' ∧ (∀ m', m' < m → l[m']? ≠ some '\n') ∧
        findNlAux l k = some (k + m)) ∨
      ((∀ m : Nat, l[m]? ≠ some '\n') ∧ findNlAux l k = none) := by
  induction l with
  | nil =>
    intro k
    exact Or.inr ⟨fun m => by simp, rfl⟩
  | cons c rest ih =>
    intro k
    by_cases hc : c = '\n'
    · refine Or.inl ⟨0, by simp, by simp [hc], fun m' hm' => by omega, ?_⟩
      simp [findNlAux, hc]
    · rcases ih (k + 1) with ⟨m, hm1, hm2, hm3, hm4⟩ | ⟨h1, h2⟩
      · refine Or.inl ⟨m + 1, by simp; omega, by simpa using hm2, ?_, ?_⟩
        · intro m' hm'
          cases m' with
          | zero => simp [hc]
          | succ m2 =>
            simp only [List.getElem?_cons_succ]
            exact hm3 m2 (by omega)
        · rw [show k + (m + 1) = k + 1 + m by omega]
          simp [findNlAux, hc, hm4]
      · refine Or.inr ⟨?_, by simp [findNlAux, hc, h2]⟩
        intro m
        cases m with
        | zero => simp [hc]
        | succ m2 => simpa using h1 m2

/-- Behavior of `delete_range` when the range is valid for both vectors and the
cursor survives without clamping. -/
theorem delete_range_noclamp (l : Log) (a b : Nat) (hab : a ≤ b)
    (hb1 : b ≤ l.chars.length) (hb2 : b ≤ l.visuals.length)
    (hc : l.cursor ≤ (l.chars.take a ++ l.chars.drop b).length) :
    l.delete_range a b = some
      { cursor := l.cursor,
        chars := l.chars.take a ++ l.chars.drop b,
        visuals := l.visuals.take a ++ l.visuals.drop b,
        visual_state := l.visual_state } := by
  simp only [Log.delete_range]
  rw [if_pos ⟨hab, hb1, hb2⟩, if_neg (by omega)]

/-- C5: with the invariants, `delete_to_end_of_line` removes
`[cursor, i)` from both `chars` and `styles`, where `i` is the first
newline index at or after the cursor, or `[cursor, len)` when no newline
follows; the cursor itself is unchanged. -/
theorem C5_delete_to_end_of_line_spec (l : Log)
    (hlen : l.visuals.length = l.chars.length) (h : l.cursor ≤ l.chars.length) :
    ∃ l', l.delete_to_end_of_line = some l' ∧ l'.cursor = l.cursor ∧
      l'.visual_state = l.visual_state ∧
      ((∃ i, l.cursor ≤ i ∧ i < l.chars.length ∧ l.chars[i]? = some '\n' ∧
          (∀ k, l.cursor ≤ k → k < i → l.chars[k]? ≠ some '\n') ∧
          l'.chars = l.chars.take l.cursor ++ l.chars.drop i ∧
          l'.visuals = l.visuals.take l.cursor ++ l.visuals.drop i) ∨
       ((∀ k, l.cursor ≤ k → l.chars[k]? ≠ some '\n') ∧
          l'.chars = l.chars.take l.cursor ∧ l'.visuals = l.visuals.take l.cursor)) := by
  rcases findNlAux_spec (l.chars.drop l.cursor) l.cursor with
    ⟨m, hm1, hm2, hm3, hm4⟩ | ⟨h1, h2⟩
  · have hm1' : m < l.chars.length - l.cursor := by
      rw [List.length_drop] at hm1
      omega
    have hchar : l.chars[l.cursor + m]? = some '\n' := by
      rw [← List.getElem?_drop]
      exact hm2
    refine ⟨{ cursor := l.cursor,
              chars := l.chars.take l.cursor ++ l.chars.drop (l.cursor + m),
              visuals := l.visuals.take l.cursor ++ l.visuals.drop (l.cursor + m),
              visual_state := l.visual_state }, ?_, rfl, rfl,
            Or.inl ⟨l.cursor + m, by omega, by omega, hchar, ?_, rfl, rfl⟩⟩
    · unfold Log.delete_to_end_of_line
      rw [hm4]
      exact delete_range_noclamp l l.cursor (l.cursor + m) (by omega) (by omega)
        (by omega) (by simp [List.length_take, List.length_drop]; omega)
    · intro k hk1 hk2
      have h6 := hm3 (k - l.cursor) (by omega)
      rw [List.getElem?_drop] at h6
      rw [show l.cursor + (k - l.cursor) = k by omega] at h6
      exact h6
  · refine ⟨{ cursor := l.cursor,
              chars := l.chars.take l.cursor ++ l.chars.drop l.chars.length,
              visuals := l.visuals.take l.cursor ++ l.visuals.drop l.chars.length,
              visual_state := l.visual_state }, ?_, rfl, rfl, Or.inr ⟨?_, ?_, ?_⟩⟩
    · unfold Log.delete_to_end_of_line
      rw [h2]
      exact delete_range_noclamp l l.cursor l.chars.length h (Nat.le_refl _)
        (by omega) (by simp [List.length_take, List.length_drop]; omega)
    · intro k hk
      have h6 := h1 (k - l.cursor)
      rw [List.getElem?_drop] at h6
      rw [show l.cursor + (k - l.cursor) = k by omega] at h6
      exact h6
    · simp
    · rw [← hlen, List.drop_length, List.append_nil]

theorem C5_witness :
    ∃ l', (Log.mk 1 ['a', 'b', '\n', 'c']
        [VisualState.new, VisualState.new, VisualState.new, VisualState.new]
        VisualState.new).delete_to_end_of_line = some l' ∧
      l'.cursor = 1 ∧ l'.visual_state = VisualState.new ∧
      ((∃ i, 1 ≤ i ∧ i < 4 ∧ (['a', 'b', '\n', 'c'] : List Char)[i]? = some '\n' ∧
          (∀ k, 1 ≤ k → k < i → (['a', 'b', '\n', 'c'] : List Char)[k]? ≠ some '\n') ∧
          l'.chars = (['a', 'b', '\n', 'c'] : List Char).take 1
            ++ (['a', 'b', '\n', 'c'] : List Char).drop i ∧
          l'.visuals = ([VisualState.new, VisualState.new, VisualState.new,
            VisualState.new] : List VisualState).take 1
            ++ ([VisualState.new, VisualState.new, VisualState.new,
              VisualState.new] : List VisualState).drop i) ∨
       ((∀ k, 1 ≤ k → (['a', 'b', '\n', 'c'] : List Char)[k]? ≠ some '\n') ∧
          l'.chars = (['a', 'b', '\n', 'c'] : List Char).take 1 ∧
          l'.visuals = ([VisualState.new, VisualState.new, VisualState.new,
            VisualState.new] : List VisualState).take 1)) :=
  C5_delete_to_end_of_line_spec
    (Log.mk 1 ['a', 'b', '\n', 'c']
      [VisualState.new, VisualState.new, VisualState.new, VisualState.new]
      VisualState.new) (by decide) (by decide)

theorem str_append_mk_cons (s : String) (c : Char) (cs : List Char) :
    (s ++ c.toString) ++ String.mk cs = s ++ String.mk (c :: cs) := by
  apply String.ext
  have hc : c.toString = String.mk [c] := rfl
  simp [String.data_append, hc]

/-- Rendering any list of in-bounds indices over an all-unset style
buffer just prints the characters, with no span ever opened. -/
theorem renderGo_all_new (chars : List Char) (visuals : List VisualState)
    (hlen : visuals.length = chars.length)
    (hall : ∀ v ∈ visuals, v = VisualState.new) :
    ∀ (idxs : List Nat), (∀ i ∈ idxs, i < chars.length) → ∀ out : String,
      renderGo chars visuals idxs false out
        = some (out ++ String.mk (idxs.filterMap fun i => chars[i]?)) := by
  intro idxs
  induction idxs with
  | nil =>
    intro _ out
    simp [renderGo]
  | cons i rest ih =>
    intro hin out
    have hi : i < chars.length := hin i (List.mem_cons_self i rest)
    have hiv : i < visuals.length := by omega
    have hv : visuals[i]? = some VisualState.new := by
      rw [List.getElem?_eq_getElem hiv]
      exact congrArg some (hall _ (List.getElem_mem hiv))
    have hc : chars[i]? = some chars[i] := List.getElem?_eq_getElem hi
    have hrest : ∀ j ∈ rest, j < chars.length :=
      fun j hj => hin j (List.mem_cons_of_mem _ hj)
    have hps : print_span VisualState.new = some (false, "") := rfl
    rw [renderGo]
    by_cases hi0 : i = 0
    · subst hi0
      simp only [hv, hps, if_pos rfl, if_true, eq_self_iff_true, Option.map_some', hc,
        String.append_empty, Bool.false_eq_true, and_false, if_false]
      rw [ih hrest (out ++ (chars[0]).toString)]
      rw [List.filterMap_cons, hc, str_append_mk_cons]
    · have hiv1 : i - 1 < visuals.length := by omega
      have hv1 : visuals[i - 1]? = some VisualState.new := by
        rw [List.getElem?_eq_getElem hiv1]
        exact congrArg some (hall _ (List.getElem_mem hiv1))
      simp only [hv, if_neg hi0, hv1, if_pos rfl, if_true, eq_self_iff_true, hc,
        Bool.false_eq_true, and_false, if_false]
      rw [ih hrest (out ++ (chars[i]).toString)]
      rw [List.filterMap_cons, hc, str_append_mk_cons]

/-- Collecting `l[i]?` over `range n` recovers the prefix of `l`. -/
theorem filterMap_range_getElem (l : List Char) :
    ∀ n, n ≤ l.length → ((List.range n).filterMap fun i => l[i]?) = l.take n := by
  intro n
  induction n with
  | zero => intro _; simp
  | succ m ih =>
    intro h
    rw [List.range_succ, List.filterMap_append, ih (by omega)]
    have hm : l[m]? = some l[m] := List.getElem?_eq_getElem (by omega)
    rw [List.take_succ, hm]
    rw [List.filterMap_cons, hm]
    simp

/-- C8: a finished buffer all of whose style entries are the all-unset
`VisualState` serializes to exactly its characters, with zero span tags;
in particular the stream for input `"Hello\n"` renders to `"Hello\n"`. -/
theorem C8_plain_text_renders_verbatim :
    (∀ (chars : List Char) (visuals : List VisualState),
      visuals.length = chars.length → (∀ v ∈ visuals, v = VisualState.new) →
      render chars visuals = some (String.mk chars)) ∧
    (run [Event.print 'H', Event.print 'e', Event.print 'l', Event.print 'l',
          Event.print 'o', Event.execute 0x0a] initLog).bind renderLog
      = some "Hello\n" := by
  constructor
  · intro chars visuals hlen hall
    unfold render
    rw [renderGo_all_new chars visuals hlen hall (List.range chars.length)
      (fun i hi => List.mem_range.1 hi) ""]
    rw [filterMap_range_getElem chars chars.length (Nat.le_refl _), List.take_length]
    rw [String.empty_append]
  · decide

theorem C8_witness :
    render ("Hi".data) [VisualState.new, VisualState.new]
      = some (String.mk ("Hi".data)) :=
  C8_plain_text_renders_verbatim.1 ("Hi".data)
    [VisualState.new, VisualState.new] (by decide) (by decide)

/-! ### Pointwise style invariants over reachable states -/

/-- A style predicate holding for the current style state and for every
stored style snapshot. -/
def VisOk (P : VisualState → Prop) (l : Log) : Prop :=
  P l.visual_state ∧ ∀ v ∈ l.visuals, P v

theorem offset_cursor_VisOk {P : VisualState → Prop} {l l' : Log} {d : Int}
    (h : VisOk P l) (he : l.offset_cursor d = some l') : VisOk P l' := by
  simp only [Log.offset_cursor] at he
  split at he
  · simp at he
  · cases he; exact h

theorem write_VisOk {P : VisualState → Prop} {l l' : Log} {c : Char}
    (h : VisOk P l) (he : l.write c = some l') : VisOk P l' := by
  unfold Log.write at he
  split at he
  · split at he
    · refine offset_cursor_VisOk ?_ he
      refine ⟨h.1, ?_⟩
      intro v hv
      rcases List.mem_or_eq_of_mem_set hv with hv2 | rfl
      · exact h.2 v hv2
      · exact h.1
    · simp at he
  · split at he
    · refine offset_cursor_VisOk ?_ he
      refine ⟨h.1, ?_⟩
      intro v hv
      rcases List.mem_append.1 hv with hv2 | hv2
      · exact h.2 v hv2
      · rw [List.mem_singleton.1 hv2]; exact h.1
    · simp at he

theorem cursor_to_start_VisOk {P : VisualState → Prop} {l l' : Log}
    (h : VisOk P l) (he : l.cursor_to_start_of_line = some l') : VisOk P l' := by
  unfold Log.cursor_to_start_of_line at he
  split at he
  · cases he; exact h
  · cases hs : scanBack l.chars (l.cursor - 1) with
    | none => rw [hs] at he; exact absurd he (by simp)
    | some r =>
      rw [hs] at he
      cases r with
      | none => cases he; exact h
      | some i => cases he; exact h

theorem delete_range_VisOk {P : VisualState → Prop} {l l' : Log} {a b : Nat}
    (h : VisOk P l) (he : l.delete_range a b = some l') : VisOk P l' := by
  simp only [Log.delete_range] at he
  split at he
  · cases he
    refine ⟨h.1, ?_⟩
    intro v hv
    rcases List.mem_append.1 hv with hv2 | hv2
    · exact h.2 v (List.take_subset _ _ hv2)
    · exact h.2 v (List.drop_subset _ _ hv2)
  · simp at he

theorem delete_to_end_VisOk {P : VisualState → Prop} {l l' : Log}
    (h : VisOk P l) (he : l.delete_to_end_of_line = some l') : VisOk P l' := by
  unfold Log.delete_to_end_of_line at he
  cases hf : findNlAux (l.chars.drop l.cursor) l.cursor with
  | some i => rw [hf] at he; exact delete_range_VisOk h he
  | none => rw [hf] at he; exact delete_range_VisOk h he

theorem foldl_preserve {α β : Type} {P : α → Prop} (f : α → β → α)
    (hf : ∀ a b, P a → P (f a b)) :
    ∀ (xs : List β) (a : α), P a → P (xs.foldl f a) := by
  intro xs
  induction xs with
  | nil => intro a ha; exact ha
  | cons x xs ih => intro a ha; exact ih (f a x) (hf a x ha)

theorem applyStyleCodes_preserve {P : VisualState → Prop}
    (hP : ∀ v p, P v → P (applySgrCode v p)) (params : List (List Nat))
    (v : VisualState) (hv : P v) : P (applyStyleCodes v params) := by
  unfold applyStyleCodes
  refine foldl_preserve _ ?_ params v hv
  intro a ps ha
  exact foldl_preserve applySgrCode (fun a2 p ha2 => hP a2 p ha2) ps a ha

theorem step_VisOk {P : VisualState → Prop}
    (hP : ∀ v p, P v → P (applySgrCode v p)) {l l' : Log} {e : Event}
    (h : VisOk P l) (he : step l e = some l') : VisOk P l' := by
  cases e with
  | print c => exact write_VisOk h he
  | execute b =>
    simp only [step] at he
    split at he
    · exact write_VisOk h he
    · split at he
      · exact cursor_to_start_VisOk h he
      · cases he; exact h
  | csi_dispatch params ints ig c =>
    simp only [step, csi_dispatch] at he
    split at he
    · cases he
      exact ⟨applyStyleCodes_preserve hP params _ h.1, h.2⟩
    · split at he
      · unfold csiK at he
        split at he
        · refine foldlM_option_inv (VisOk P) _ ?_ params l l' h he
          intro b ps b' hb hbe
          refine foldlM_option_inv (VisOk P) _ ?_ ps b b' hb hbe
          intro b2 p b2' hb2 hbe2
          split at hbe2
          · exact delete_to_end_VisOk hb2 hbe2
          · exact absurd hbe2 (by simp)
        · exact absurd he (by simp)
      · split at he
        · unfold csiC at he
          split at he
          · refine foldlM_option_inv (VisOk P) _ ?_ params l l' h he
            intro b ps b' hb hbe
            refine foldlM_option_inv (VisOk P) _ ?_ ps b b' hb hbe
            intro b2 p b2' hb2 hbe2
            exact offset_cursor_VisOk hb2 hbe2
          · exact absurd he (by simp)
        · cases he; exact h
  | hook params ints ig c => cases he; exact h
  | put b => cases he; exact h
  | unhook => cases he; exact h
  | osc_dispatch params bell => cases he; exact h
  | esc_dispatch ints ig b => cases he; exact h

theorem run_VisOk {P : VisualState → Prop}
    (hP : ∀ v p, P v → P (applySgrCode v p)) {es : List Event} {l' : Log}
    (h0 : VisOk P initLog) (he : run es initLog = some l') : VisOk P l' :=
  foldlM_option_inv (VisOk P) step (fun _ _ _ hb hbe => step_VisOk hP hb hbe)
    es initLog l' h0 he

/-- The numeric ranges a `Named` color can take in interpreter-produced
styles: 30–37 or 90–97 for foreground, 40–47 or 100–107 for background. -/
def colorOk (v : VisualState) : Prop :=
  (∀ n : Int, v.fg = some (Color.N n) → (30 ≤ n ∧ n ≤ 37) ∨ (90 ≤ n ∧ n ≤ 97)) ∧
  (∀ n : Int, v.bg = some (Color.N n) → (40 ≤ n ∧ n ≤ 47) ∨ (100 ≤ n ∧ n ≤ 107))

theorem colorOk_new : colorOk VisualState.new :=
  ⟨fun n hn => by simp [VisualState.new] at hn,
   fun n hn => by simp [VisualState.new] at hn⟩

theorem applySgrCode_colorOk : ∀ (v : VisualState) (p : Nat),
    colorOk v → colorOk (applySgrCode v p) := by
  intro v p h
  unfold applySgrCode
  split_ifs with h0 h1 h22 h30 h39 h40 h49 h90 h100
  · exact colorOk_new
  · exact ⟨h.1, h.2⟩
  · exact ⟨h.1, h.2⟩
  · refine ⟨?_, h.2⟩
    intro n hn
    simp only [Option.some.injEq, Color.N.injEq] at hn
    subst hn
    left
    omega
  · exact ⟨fun n hn => by simp at hn, h.2⟩
  · refine ⟨h.1, ?_⟩
    intro n hn
    simp only [Option.some.injEq, Color.N.injEq] at hn
    subst hn
    left
    omega
  · exact ⟨h.1, fun n hn => by simp at hn⟩
  · refine ⟨?_, h.2⟩
    intro n hn
    simp only [Option.some.injEq, Color.N.injEq] at hn
    subst hn
    right
    omega
  · refine ⟨h.1, ?_⟩
    intro n hn
    simp only [Option.some.injEq, Color.N.injEq] at hn
    subst hn
    right
    omega
  · exact ⟨h.1, h.2⟩

theorem fgClasses_isSome {c : Option Color}
    (h : ∀ n : Int, c = some (Color.N n) → (30 ≤ n ∧ n ≤ 37) ∨ (90 ≤ n ∧ n ≤ 97)) :
    (fgClasses c).isSome = true := by
  cases c with
  | none => simp [fgClasses]
  | some col =>
    cases col with
    | RGB r g b => simp [fgClasses]
    | N n =>
      rcases h n rfl with ⟨h1, h2⟩ | ⟨h1, h2⟩
      · simp only [fgClasses]
        rw [if_pos ⟨h1, h2⟩]
        rfl
      · simp only [fgClasses]
        rw [if_neg (by omega), if_pos ⟨h1, h2⟩]
        rfl

theorem bgClasses_isSome {c : Option Color}
    (h : ∀ n : Int, c = some (Color.N n) → (40 ≤ n ∧ n ≤ 47) ∨ (100 ≤ n ∧ n ≤ 107)) :
    (bgClasses c).isSome = true := by
  cases c with
  | none => simp [bgClasses]
  | some col =>
    cases col with
    | RGB r g b => simp [bgClasses]
    | N n =>
      rcases h n rfl with ⟨h1, h2⟩ | ⟨h1, h2⟩
      · simp only [bgClasses]
        rw [if_pos ⟨h1, h2⟩]
        rfl
      · simp only [bgClasses]
        rw [if_neg (by omega), if_pos ⟨h1, h2⟩]
        rfl

theorem print_span_isSome {v : VisualState} (h : colorOk v) :
    (print_span v).isSome = true := by
  obtain ⟨l2, hl2⟩ := Option.isSome_iff_exists.1 (fgClasses_isSome h.1)
  obtain ⟨l3, hl3⟩ := Option.isSome_iff_exists.1 (bgClasses_isSome h.2)
  unfold print_span span_classes
  rw [hl2, hl3]
  rfl

/-- C9: on every interpreter-produced buffer (any event stream run from
the initial state), every stored style has `Named` foreground colors
only in 30–37 ∪ 90–97 and `Named` background colors only in
40–47 ∪ 100–107, so `print_span`'s fatal out-of-range color condition
cannot fire; `TrueColor` values contribute no class and are skipped,
not fatal. -/
theorem C9_colors_safe :
    (∀ es l', run es initLog = some l' →
      colorOk l'.visual_state ∧ ∀ v ∈ l'.visuals, colorOk v ∧ (print_span v).isSome = true) ∧
    (∀ r g b : Int,
      span_classes { intensity := none, fg := some (Color.RGB r g b),
                     bg := some (Color.RGB r g b) } = some []) := by
  constructor
  · intro es l' he
    have h := run_VisOk applySgrCode_colorOk
      ⟨colorOk_new, fun v hv => by simp [initLog] at hv⟩ he
    exact ⟨h.1, fun v hv => ⟨h.2 v hv, print_span_isSome (h.2 v hv)⟩⟩
  · intro r g b
    rfl

theorem C9_witness :
    colorOk (Log.mk 1 ['x']
      [{ intensity := some Intensity.Bold, fg := some (Color.N 31), bg := none }]
      { intensity := some Intensity.Bold, fg := some (Color.N 31),
        bg := none }).visual_state ∧
    ∀ v ∈ (Log.mk 1 ['x']
      [{ intensity := some Intensity.Bold, fg := some (Color.N 31), bg := none }]
      { intensity := some Intensity.Bold, fg := some (Color.N 31),
        bg := none }).visuals,
      colorOk v ∧ (print_span v).isSome = true :=
  C9_colors_safe.1 [Event.csi_dispatch [[1], [31]] [] false 'm', Event.print 'x']
    (Log.mk 1 ['x']
      [{ intensity := some Intensity.Bold, fg := some (Color.N 31), bg := none }]
      { intensity := some Intensity.Bold, fg := some (Color.N 31), bg := none })
    (by decide)

/-! ### No SGR code ever produces `Faint` -/

theorem applySgrCode_no_faint : ∀ (v : VisualState) (p : Nat),
    v.intensity ≠ some Intensity.Faint →
    (applySgrCode v p).intensity ≠ some Intensity.Faint := by
  intro v p h
  unfold applySgrCode
  split_ifs <;> first
    | exact h
    | simp [VisualState.new]

/-- A string starting with a 6-character-or-longer prefix whose sixth
character is `'g'` is not `"sgr-faint"` (whose sixth character is
`'a'`). -/
theorem append_ne_faint {pre : String} (t : String)
    (h5 : pre.data[5]? = some 'g') (hlen : 6 ≤ pre.data.length) :
    (pre ++ t) ≠ "sgr-faint" := by
  intro h
  have hd : (pre ++ t).data = ("sgr-faint" : String).data := by rw [h]
  rw [String.data_append] at hd
  have h6 : (pre.data ++ t.data)[5]? = some 'g' := by
    rw [List.getElem?_append, if_pos (by omega)]
    exact h5
  rw [hd] at h6
  exact absurd h6 (by decide)

theorem mem_fgClasses_ne_faint {c : Option Color} {l2 : List String}
    (h : fgClasses c = some l2) : ∀ s ∈ l2, s ≠ "sgr-faint" := by
  cases c with
  | none => simp only [fgClasses] at h; cases h; simp
  | some col =>
    cases col with
    | RGB r g b => simp only [fgClasses] at h; cases h; simp
    | N n =>
      simp only [fgClasses] at h
      split at h
      · cases h
        intro s hs
        rw [List.mem_singleton.1 hs]
        exact append_ne_faint _ (by decide) (by decide)
      · split at h
        · cases h
          intro s hs
          rw [List.mem_singleton.1 hs]
          exact append_ne_faint _ (by decide) (by decide)
        · exact absurd h (by simp)

theorem mem_bgClasses_ne_faint {c : Option Color} {l3 : List String}
    (h : bgClasses c = some l3) : ∀ s ∈ l3, s ≠ "sgr-faint" := by
  cases c with
  | none => simp only [bgClasses] at h; cases h; simp
  | some col =>
    cases col with
    | RGB r g b => simp only [bgClasses] at h; cases h; simp
    | N n =>
      simp only [bgClasses] at h
      split at h
      · cases h
        intro s hs
        rw [List.mem_singleton.1 hs]
        exact append_ne_faint _ (by decide) (by decide)
      · split at h
        · cases h
          intro s hs
          rw [List.mem_singleton.1 hs]
          exact append_ne_faint _ (by decide) (by decide)
        · exact absurd h (by simp)

theorem no_faint_class {v : VisualState} (h : v.intensity ≠ some Intensity.Faint)
    {cls : List String} (hcls : span_classes v = some cls) :
    "sgr-faint" ∉ cls := by
  unfold span_classes at hcls
  cases h2 : fgClasses v.fg with
  | none => rw [h2] at hcls; exact absurd hcls (by simp)
  | some l2 =>
    cases h3 : bgClasses v.bg with
    | none => rw [h2, h3] at hcls; exact absurd hcls (by simp)
    | some l3 =>
      rw [h2, h3] at hcls
      cases hcls
      intro hmem
      rcases List.mem_append.1 hmem with hm | hm
      · rcases List.mem_append.1 hm with hm2 | hm2
        · cases hv : v.intensity with
          | none => rw [hv] at hm2; simp [intensityClasses] at hm2
          | some ii =>
            cases ii with
            | Bold =>
              rw [hv] at hm2
              exact absurd hm2 (by decide)
            | Faint => exact h hv
        · exact mem_fgClasses_ne_faint h2 _ hm2 rfl
      · exact mem_bgClasses_ne_faint h3 _ hm rfl

/-- C10: on every interpreter-produced state, the intensity channel is
never `Faint` — no SGR code in the dispatch table sets it — so every
stored style has intensity unset or `Bold` and the serializer never
emits the class `"sgr-faint"`. -/
theorem C10_no_faint :
    ∀ es l', run es initLog = some l' →
      l'.visual_state.intensity ≠ some Intensity.Faint ∧
      ∀ v ∈ l'.visuals, v.intensity ≠ some Intensity.Faint ∧
        ∀ cls, span_classes v = some cls → "sgr-faint" ∉ cls := by
  intro es l' he
  have h := run_VisOk applySgrCode_no_faint
    ⟨by simp [initLog, VisualState.new], fun v hv => by simp [initLog] at hv⟩ he
  exact ⟨h.1, fun v hv => ⟨h.2 v hv, fun cls hcls => no_faint_class (h.2 v hv) hcls⟩⟩

theorem C10_witness :
    (Log.mk 1 ['x']
      [{ intensity := some Intensity.Bold, fg := none, bg := none }]
      { intensity := some Intensity.Bold, fg := none,
        bg := none }).visual_state.intensity ≠ some Intensity.Faint ∧
    ∀ v ∈ (Log.mk 1 ['x']
      [{ intensity := some Intensity.Bold, fg := none, bg := none }]
      { intensity := some Intensity.Bold, fg := none, bg := none }).visuals,
      v.intensity ≠ some Intensity.Faint ∧
        ∀ cls, span_classes v = some cls → "sgr-faint" ∉ cls :=
  C10_no_faint [Event.csi_dispatch [[1]] [] false 'm', Event.print 'x']
    (Log.mk 1 ['x']
      [{ intensity := some Intensity.Bold, fg := none, bg := none }]
      { intensity := some Intensity.Bold, fg := none, bg := none })
    (by decide)

theorem C1_witness :
    WF { cursor := 1, chars := ['a'], visuals := [VisualState.new],
         visual_state := VisualState.new } :=
  (C1_operations_preserve_invariants initLog (by decide)).1 'a'
    { cursor := 1, chars := ['a'], visuals := [VisualState.new],
      visual_state := VisualState.new } (by decide)

end Vte2Html
